import Mathlib

/-!
Verification of the tree-editing core of a React mind-map editor
(`src/components/MindMap.tsx`).

The tree store operates on a recursive `Node` record; operations are pure
functions from the current root to a new root, threaded through React state.
We embed the data model and each handler faithfully, modelling JavaScript
array-index semantics (`arr[i]` yields `undefined` out of range, `slice`
clamps relative indices, `undefined + 1` is `NaN`, and dereferencing a field
of `undefined` throws a `TypeError`, modelled by `Except.error`).
-/

/-- `interface Node { id: string; content: string; children: Node[]; collapsed?: boolean }`.
The optional `collapsed` flag is modelled as a `Bool` defaulting to `false`
(JavaScript treats a missing flag as falsy). -/
inductive Node where
  | mk (id : String) (content : String) (children : List Node) (collapsed : Bool)

def Node.id : Node → String
  | .mk i _ _ _ => i

def Node.content : Node → String
  | .mk _ c _ _ => c

def Node.children : Node → List Node
  | .mk _ _ ch _ => ch

def Node.collapsed : Node → Bool
  | .mk _ _ _ col => col

/-- `{ ...node, children: ch }` -/
def Node.withChildren : Node → List Node → Node
  | .mk i c _ col, ch => .mk i c ch col

/-- `{ ...node, content: c }` -/
def Node.withContent : Node → String → Node
  | .mk i _ ch col, c => .mk i c ch col

/-- `{ ...node, collapsed: b }` -/
def Node.withCollapsed : Node → Bool → Node
  | .mk i c ch _, b => .mk i c ch b

/-- JavaScript `arr[i]`: `undefined` (here `none`) for a negative or
out-of-range index. -/
def jsGet? (l : List Node) (i : Int) : Option Node :=
  if i < 0 then none else l[i.toNat]?

/-- Resolution of a relative index by `Array.prototype.slice`:
negative indices count from the end (clamped at 0), nonnegative ones are
clamped at the length. -/
def jsRelIndex (len : Nat) (i : Int) : Nat :=
  if i < 0 then ((len : Int) + i).toNat else min i.toNat len

/-- JavaScript `arr.slice(s)` (when `e = none`) and `arr.slice(s, e)`. -/
def jsSlice (l : List Node) (s : Int) (e : Option Int) : List Node :=
  let start := jsRelIndex l.length s
  let stop := match e with
    | none => l.length
    | some e => jsRelIndex l.length e
  (l.take stop).drop start

/-! ## Tree Store operations (the `useCallback` handlers of `MindMap`) -/

/- Recursion over the nested inductive uses `List.attach` so that well-founded
recursion sees the membership of each child; the `_def` lemmas below restore
the plain `List.map`/`List.filterMap` shape of the source. -/

/-- `addChildToNode` from `handleAddChild`: append `newNode` to the children of
the node whose `id` matches `parentId`; recurse into children otherwise. -/
def addChildToNode (parentId : String) (newNode : Node) : Node → Node
  | .mk i c ch col =>
    if i = parentId then .mk i c (ch ++ [newNode]) col
    else .mk i c (ch.attach.map (fun child => addChildToNode parentId newNode child.1)) col
  decreasing_by
    have := List.sizeOf_lt_of_mem child.2
    simp only [Node.mk.sizeOf_spec]
    omega

theorem addChildToNode_def (parentId : String) (newNode : Node) (i c : String)
    (ch : List Node) (col : Bool) :
    addChildToNode parentId newNode (.mk i c ch col) =
      if i = parentId then .mk i c (ch ++ [newNode]) col
      else .mk i c (ch.map (addChildToNode parentId newNode)) col := by
  rw [addChildToNode]
  simp [List.map_attach]

/-- `handleAddChild`: the fresh random id is a parameter; the new node has
content `"New Node"`, no children, and no `collapsed` field. -/
def handleAddChild (freshId parentId : String) (root : Node) : Node :=
  addChildToNode parentId (Node.mk freshId "New Node" [] false) root

theorem attach_filterMap_eq {a b : Type} (l : List a) (g : a → Option b) :
    l.attach.filterMap (fun c => g c.1) = l.filterMap g := by
  induction l with
  | nil => rfl
  | cons x l ih =>
    simp only [List.attach_cons, List.filterMap_cons, List.filterMap_map]
    simp only [List.filterMap_cons] at ih ⊢
    cases g x <;> simp_all [Function.comp]

/-- `deleteNodeFromTree` from `handleDeleteNode`: `null` (here `none`) signals
removal of the subtree; surviving children are kept by the `filter`, i.e. the
children list is the `filterMap` of the recursive calls. -/
def deleteNodeFromTree (targetId : String) : Node → Option Node
  | .mk i c ch col =>
    if i = targetId then none
    else some (.mk i c (ch.attach.filterMap (fun child => deleteNodeFromTree targetId child.1)) col)
  decreasing_by
    have := List.sizeOf_lt_of_mem child.2
    simp only [Node.mk.sizeOf_spec]
    omega

theorem deleteNodeFromTree_def (targetId : String) (i c : String)
    (ch : List Node) (col : Bool) :
    deleteNodeFromTree targetId (.mk i c ch col) =
      if i = targetId then none
      else some (.mk i c (ch.filterMap (deleteNodeFromTree targetId)) col) := by
  rw [deleteNodeFromTree]
  simp [attach_filterMap_eq]

/-- `handleDeleteNode`: `setRoot` is only called when the result is non-null,
so deleting the root leaves the state untouched. -/
def handleDeleteNode (targetId : String) (root : Node) : Node :=
  (deleteNodeFromTree targetId root).getD root

/-- `updateNodeContent` from `handleUpdateContent`. When the id matches, the
node is rebuilt with the new content and its original children (the recursion
does not descend below a match). -/
def updateNodeContent (targetId text : String) : Node → Node
  | .mk i c ch col =>
    if i = targetId then .mk i text ch col
    else .mk i c (ch.attach.map (fun child => updateNodeContent targetId text child.1)) col
  decreasing_by
    have := List.sizeOf_lt_of_mem child.2
    simp only [Node.mk.sizeOf_spec]
    omega

theorem updateNodeContent_def (targetId text : String) (i c : String)
    (ch : List Node) (col : Bool) :
    updateNodeContent targetId text (.mk i c ch col) =
      if i = targetId then .mk i text ch col
      else .mk i c (ch.map (updateNodeContent targetId text)) col := by
  rw [updateNodeContent]
  simp [List.map_attach]

def handleUpdateContent (targetId text : String) (root : Node) : Node :=
  updateNodeContent targetId text root

/-- `toggleCollapse` from `handleToggleCollapse`. -/
def toggleCollapse (targetId : String) : Node → Node
  | .mk i c ch col =>
    if i = targetId then .mk i c ch (!col)
    else .mk i c (ch.attach.map (fun child => toggleCollapse targetId child.1)) col
  decreasing_by
    have := List.sizeOf_lt_of_mem child.2
    simp only [Node.mk.sizeOf_spec]
    omega

theorem toggleCollapse_def (targetId : String) (i c : String)
    (ch : List Node) (col : Bool) :
    toggleCollapse targetId (.mk i c ch col) =
      if i = targetId then .mk i c ch (!col)
      else .mk i c (ch.map (toggleCollapse targetId)) col := by
  rw [toggleCollapse]
  simp [List.map_attach]

def handleToggleCollapse (targetId : String) (root : Node) : Node :=
  toggleCollapse targetId root

/-! ## Path resolution and rewrite (`updateNodeAtPath`) and the path handlers

JavaScript exceptions (`TypeError` on dereferencing a field of `undefined`)
are modelled with `Except Unit`; an updater that cannot throw always returns
`.ok`. The updater receives the extra `(index, path)` arguments of the source
signature even though every concrete updater ignores them. -/

/-- `arr[i]` followed by a field access: throws when the element is
`undefined`. -/
def jsGetThrow (l : List Node) (i : Int) : Except Unit Node :=
  match jsGet? l i with
  | some n => .ok n
  | none => .error ()

/-- `updateNodeAtPath(node, path, updater)`: walk the path, treating an
out-of-range (or negative) index as "target not found" and returning that
subtree unchanged; at the end of the path apply the updater, whose `null`
(`none`) result removes the child slot on the way back up. -/
def updateNodeAtPath (node : Node) :
    List Int → (Node → Int → List Int → Except Unit (Option Node)) →
    Except Unit (Option Node)
  | [], updater => updater node 0 []
  | index :: rest, updater =>
    if h : 0 ≤ index ∧ index < (node.children.length : Int) then
      match updateNodeAtPath (node.children.get ⟨index.toNat, by omega⟩) rest updater with
      | .error e => .error e
      | .ok none =>
        .ok (some (node.withChildren (node.children.eraseIdx index.toNat)))
      | .ok (some updatedChild) =>
        .ok (some (node.withChildren (node.children.set index.toNat updatedChild)))
    else
      .ok (some node)

/-- The surrounding component's mutable state: the tree root plus the
separately tracked pending-focus id (`focusNodeId`). -/
structure MindMapState where
  root : Node
  focusNodeId : Option String

/-- The functional `setRoot` update performed by `handleAddSibling`: inserts
the new node immediately after index `path[path.length - 1]` among the
children of the node at `path.slice(0, -1)`. For the empty path the index is
`undefined` (modelled by `none`), making `slice(0, index + 1)` evaluate to
`slice(0, NaN) = []` and `slice(index + 1)` to `slice(NaN)` = the whole
array, so the node is prepended to the root's children. -/
def addSiblingTreeUpdate (freshId : String) (path : List Int) (prevRoot : Node) : Node :=
  let newNode : Node := .mk freshId "" [] false
  let parentPath := path.dropLast
  let index := path.getLast?
  let newRoot := updateNodeAtPath prevRoot parentPath (fun node _ _ =>
    let newChildren := match index with
      | some i => jsSlice node.children 0 (some (i + 1)) ++ [newNode] ++
          jsSlice node.children (i + 1) none
      | none => [newNode] ++ node.children
    .ok (some (node.withChildren newChildren)))
  match newRoot with
  | .ok (some r) => r
  | _ => prevRoot

/-- `handleAddSibling`: updates the root via `addSiblingTreeUpdate` and then
stores the fresh id in the separately tracked `focusNodeId` state
(`setFocusNodeId(newNode.id)`); the handler itself returns nothing. -/
def handleAddSibling (freshId : String) (path : List Int) (st : MindMapState) :
    MindMapState :=
  { root := addSiblingTreeUpdate freshId path st.root
    focusNodeId := some freshId }

/-- The updater `handleIndent` passes to `updateNodeAtPath`. When
`node.children[index]` / `node.children[index - 1]` is out of range the
source reads `undefined` and either crashes on `undefined.children`
(negative index) or splices `undefined` into the tree (index past the end);
both escapes from well-formed trees are modelled by `.error`. -/
def indentUpdater (index : Int) (node : Node) (_ : Int) (_ : List Int) :
    Except Unit (Option Node) := do
  let targetNode ← jsGetThrow node.children index
  let previousSibling ← jsGetThrow node.children (index - 1)
  let newChildren := node.children.eraseIdx index.toNat
  let newPreviousSibling :=
    previousSibling.withChildren (previousSibling.children ++ [targetNode])
  pure (some (node.withChildren
    (newChildren.set (index.toNat - 1) newPreviousSibling)))

/-- `handleIndent`: no-op for the root path or a first sibling; otherwise the
node at `path` becomes the last child of its preceding sibling. -/
def handleIndent (root : Node) (path : List Int) : Except Unit Node :=
  match path.getLast? with
  | none => .ok root
  | some index =>
    if index = 0 then .ok root
    else
      let parentPath := path.dropLast
      (updateNodeAtPath root parentPath (indentUpdater index)).map
        (fun r => r.getD root)

/-- The updater `handleOutdent` passes to `updateNodeAtPath`. With an
out-of-range `parentIndex` or `index` the source dereferences
`undefined.children` (in `parentNode.children.slice` resp. the spread of
`targetNode.children`) and throws, modelled by `.error`. -/
def outdentUpdater (parentIndex index : Int) (node : Node) (_ : Int)
    (_ : List Int) : Except Unit (Option Node) := do
  let parentNode ← jsGetThrow node.children parentIndex
  let targetNode ← jsGetThrow parentNode.children index
  let followingSiblings := jsSlice parentNode.children (index + 1) none
  let newParentChildren := jsSlice parentNode.children 0 (some index)
  let newParentNode := parentNode.withChildren newParentChildren
  let newTargetNode :=
    targetNode.withChildren (targetNode.children ++ followingSiblings)
  let newChildren := node.children.enum.flatMap (fun p =>
    if (p.1 : Int) = parentIndex then [newParentNode, newTargetNode]
    else [p.2])
  pure (some (node.withChildren newChildren))

/-- `handleOutdent`: no-op for paths of length below 2; otherwise the node at
`path` is promoted right after its parent among the grandparent's children
and the siblings that followed it become its trailing children. -/
def handleOutdent (root : Node) (path : List Int) : Except Unit Node :=
  if path.length < 2 then .ok root
  else
    let grandparentPath := path.dropLast.dropLast
    match path.getLast?, path.dropLast.getLast? with
    | some index, some parentIndex =>
      (updateNodeAtPath root grandparentPath
        (outdentUpdater parentIndex index)).map (fun r => r.getD root)
    | _, _ => .ok root

/-! ## Layout Engine (`calculateNodePositions`)

Coordinates are rationals: every quantity the source computes is a dyadic
rational (integer sums halved), so IEEE doubles compute it exactly and `ℚ`
is a faithful model. -/

inductive PositionedNode where
  | mk (node : Node) (x y width height : ℚ) (children : List PositionedNode)

def PositionedNode.node : PositionedNode → Node
  | .mk n _ _ _ _ _ => n

def PositionedNode.x : PositionedNode → ℚ
  | .mk _ x _ _ _ _ => x

def PositionedNode.y : PositionedNode → ℚ
  | .mk _ _ y _ _ _ => y

def PositionedNode.width : PositionedNode → ℚ
  | .mk _ _ _ w _ _ => w

def PositionedNode.height : PositionedNode → ℚ
  | .mk _ _ _ _ h _ => h

def PositionedNode.children : PositionedNode → List PositionedNode
  | .mk _ _ _ _ _ ch => ch

def nodeWidth : ℚ := 100

def nodeHeight : ℚ := 50

def nodeVerticalSpacing : ℚ := 20

def nodeHorizontalSpacing : ℚ := 150

mutual
/-- `calculateNodePositions(node, depth, xOffset, yOffset)`. The source's
`for` loop over the children (accumulating `childYOffset` and `totalHeight`,
with the final `totalHeight -= nodeVerticalSpacing`) is the recursion
`layoutChildren`; `children[0].y` is read off the first positioned child. -/
def calculateNodePositions (node : Node) (depth xOffset yOffset : ℚ) :
    PositionedNode × ℚ :=
  let x := xOffset + depth * nodeHorizontalSpacing
  if node.collapsed = false ∧ 0 < node.children.length then
    let (children, rawHeight) :=
      layoutChildren node.children (depth + 1) xOffset yOffset
    let totalHeight := rawHeight - nodeVerticalSpacing
    let y := (match children with
      | c0 :: _ => c0.y
      | [] => yOffset) + (totalHeight - nodeHeight) / 2
    (.mk node x y nodeWidth nodeHeight children, totalHeight)
  else
    (.mk node x yOffset nodeWidth nodeHeight [], nodeHeight)
  termination_by sizeOf node
  decreasing_by
    cases node with
    | mk i c ch col => simp [Node.children]; omega

/-- One pass of the source's child loop: returns the positioned children and
the accumulated `totalHeight` before the final `-= nodeVerticalSpacing`
(i.e. each child contributes `childHeight + nodeVerticalSpacing`). -/
def layoutChildren (nodes : List Node) (depth xOffset childYOffset : ℚ) :
    List PositionedNode × ℚ :=
  match nodes with
  | [] => ([], 0)
  | child :: rest =>
    let (childPositioned, childHeight) :=
      calculateNodePositions child depth xOffset childYOffset
    let (restPositioned, restHeight) :=
      layoutChildren rest depth xOffset
        (childYOffset + childHeight + nodeVerticalSpacing)
    (childPositioned :: restPositioned,
      childHeight + nodeVerticalSpacing + restHeight)
  termination_by sizeOf nodes
  decreasing_by
    · simp; omega
    · simp
end

/-! ## Observation functions used to state the specification -/

/-- Resolve a path to the node it denotes, with the same JavaScript index
semantics (`jsGet?`) the walk of `updateNodeAtPath` uses. -/
def getNodeAtPath? (node : Node) : List Int → Option Node
  | [] => some node
  | i :: rest => (jsGet? node.children i).bind (fun c => getNodeAtPath? c rest)

theorem attach_flatMap_eq {a b : Type} (l : List a) (g : a → List b) :
    l.attach.flatMap (fun c => g c.1) = l.flatMap g := by
  induction l with
  | nil => rfl
  | cons x l ih =>
    simp only [List.attach_cons, List.flatMap_cons, List.flatMap_map]
    simp only [List.flatMap_cons] at ih ⊢
    simp_all [Function.comp]

/-- All ids of a tree, in preorder. -/
def nodeIds : Node → List String
  | .mk i _ ch _ => i :: ch.attach.flatMap (fun c => nodeIds c.1)
  decreasing_by
    have := List.sizeOf_lt_of_mem c.2
    simp only [Node.mk.sizeOf_spec]
    omega

theorem nodeIds_def (i c : String) (ch : List Node) (col : Bool) :
    nodeIds (.mk i c ch col) = i :: ch.flatMap nodeIds := by
  rw [nodeIds]
  simp [attach_flatMap_eq]

/-- First node with the given id, in preorder. -/
def findById? (tid : String) : Node → Option Node
  | .mk i c ch col =>
    if i = tid then some (.mk i c ch col)
    else (ch.attach.filterMap (fun child => findById? tid child.1)).head?
  decreasing_by
    have := List.sizeOf_lt_of_mem child.2
    simp only [Node.mk.sizeOf_spec]
    omega

theorem findById?_def (tid i c : String) (ch : List Node) (col : Bool) :
    findById? tid (.mk i c ch col) =
      if i = tid then some (.mk i c ch col)
      else (ch.filterMap (findById? tid)).head? := by
  rw [findById?]
  simp [attach_filterMap_eq]

/-- Erase every `content` field; two trees with the same `stripContent` image
have the same ids, the same children order and the same collapsed flags
everywhere. -/
def stripContent : Node → Node
  | .mk i _ ch col => .mk i "" (ch.attach.map (fun c => stripContent c.1)) col
  decreasing_by
    have := List.sizeOf_lt_of_mem c.2
    simp only [Node.mk.sizeOf_spec]
    omega

theorem stripContent_def (i c : String) (ch : List Node) (col : Bool) :
    stripContent (.mk i c ch col) = .mk i "" (ch.map stripContent) col := by
  rw [stripContent]
  simp [List.map_attach]

/-- The ids that are visible for layout: a collapsed node hides its whole
descendant set. -/
def visibleIds : Node → List String
  | .mk i _ ch col =>
    i :: (if col then [] else ch.attach.flatMap (fun c => visibleIds c.1))
  decreasing_by
    have := List.sizeOf_lt_of_mem c.2
    simp only [Node.mk.sizeOf_spec]
    omega

theorem visibleIds_def (i c : String) (ch : List Node) (col : Bool) :
    visibleIds (.mk i c ch col) =
      i :: (if col then [] else ch.flatMap visibleIds) := by
  rw [visibleIds]
  simp [attach_flatMap_eq]

/-- The ids appearing anywhere in a positioned tree, in preorder. -/
def positionedIds : PositionedNode → List String
  | .mk n _ _ _ _ ch => n.id :: ch.attach.flatMap (fun c => positionedIds c.1)
  decreasing_by
    have := List.sizeOf_lt_of_mem c.2
    simp only [PositionedNode.mk.sizeOf_spec]
    omega

theorem positionedIds_def (n : Node) (x y w h : ℚ) (ch : List PositionedNode) :
    positionedIds (.mk n x y w h ch) = n.id :: ch.flatMap positionedIds := by
  rw [positionedIds]
  simp [attach_flatMap_eq]

/-- Structural induction for the nested inductive `Node`. -/
theorem Node.induct (P : Node → Prop)
    (h : ∀ i c ch col, (∀ x ∈ ch, P x) → P (Node.mk i c ch col)) :
    ∀ n, P n :=
  fun n =>
    @Node.rec P (fun l => ∀ x ∈ l, P x)
      (fun i c ch col ih => h i c ch col ih)
      (fun x hx => absurd hx (List.not_mem_nil x))
      (fun a l ha hl x hx => by
        rcases List.mem_cons.mp hx with rfl | hx
        · exact ha
        · exact hl x hx)
      n

/-! ## Claims -/

/-- C1: the claim says every Tree Store operation is total and degrades to a
no-op on an invalid path. The code is not: `handleOutdent` dereferences
`undefined.children` when the parent index of the path is out of range (here
the path `[0, 0]` on a childless root), and `handleIndent` does the same for
a negative last index; both evaluate to the modelled JavaScript `TypeError`
instead of returning the tree unchanged. -/
theorem C1_outdent_and_indent_raise_on_invalid_paths :
    handleOutdent (.mk "0" "Root" [] false) [0, 0] = .error () ∧
    handleIndent (.mk "0" "Root" [.mk "a" "A" [] false] false) [-1] = .error () := by
  constructor <;> rfl

/-- C2 counterexample: the claim says `addSibling` returns the fresh id as an
explicit result paired with the new tree rather than communicating it through
a separately tracked variable. In the code the handler returns nothing: at
the concrete input below its whole effect is a state whose `root` comes from
the tree-only update `addSiblingTreeUpdate` (which returns a bare tree, no
id) and whose separately tracked `focusNodeId` field — previously `none` —
is where the fresh id is deposited. -/
theorem C2_counterexample_id_flows_through_focus_state :
    handleAddSibling "n1" [0]
        ⟨.mk "0" "Root" [.mk "a" "A" [] false] false, none⟩ =
      { root := addSiblingTreeUpdate "n1" [0]
          (.mk "0" "Root" [.mk "a" "A" [] false] false),
        focusNodeId := some "n1" } ∧
    (MindMapState.mk (.mk "0" "Root" [.mk "a" "A" [] false] false)
        none).focusNodeId = none :=
  ⟨rfl, rfl⟩

/-- C2 amended: `handleAddSibling` does not return the fresh id paired with
the tree; for every state, path and fresh id it stores the fresh id in the
separately tracked `focusNodeId` state variable (unconditionally), while the
tree part of the state is produced by the id-less update
`addSiblingTreeUpdate`. -/
theorem C2_amended_id_stored_in_focus_variable (freshId : String)
    (path : List Int) (st : MindMapState) :
    (handleAddSibling freshId path st).focusNodeId = some freshId ∧
    (handleAddSibling freshId path st).root =
      addSiblingTreeUpdate freshId path st.root :=
  ⟨rfl, rfl⟩

/-- C5: deleting the root is always a no-op: for every tree,
`handleDeleteNode` applied with the root's own id returns the root
unchanged (`deleteNodeFromTree` yields `null`, so `setRoot` is skipped). -/
theorem C5_delete_root_is_noop (root : Node) :
    handleDeleteNode root.id root = root := by
  cases root with
  | mk i c ch col => simp [handleDeleteNode, deleteNodeFromTree_def, Node.id]

/-- C6 counterexample: the claim says `addSibling` at the root path (the
empty index sequence) is a structural no-op. It is not: on a root with one
child the call changes the tree (the root gains a second child). -/
theorem C6_counterexample_addSibling_at_root_path_changes_tree :
    (handleAddSibling "n1" []
        ⟨.mk "0" "Root" [.mk "a" "A" [] false] false, none⟩).root ≠
      Node.mk "0" "Root" [.mk "a" "A" [] false] false := by
  intro h
  have hlen := congrArg (fun n => n.children.length) h
  simp [handleAddSibling, addSiblingTreeUpdate, updateNodeAtPath,
    Node.withChildren, Node.children] at hlen

/-- C6 amended: `addSibling` at the root path is not rejected; because
`path[path.length - 1]` is `undefined` there, `slice(0, NaN)` is empty and
`slice(NaN)` is the whole array, so the new (empty-content) node is inserted
as the FIRST child of the root and the rest of the tree is unchanged. -/
theorem C6_amended_addSibling_at_root_path_prepends (freshId : String)
    (st : MindMapState) :
    (handleAddSibling freshId [] st).root =
      st.root.withChildren (Node.mk freshId "" [] false :: st.root.children) := by
  simp [handleAddSibling, addSiblingTreeUpdate, updateNodeAtPath]

/-! ## Layout equations and invariants -/

theorem layoutChildren_nil (d xo y : ℚ) : layoutChildren [] d xo y = ([], 0) := by
  rw [layoutChildren]

theorem layoutChildren_cons (a : Node) (l : List Node) (d xo y : ℚ) :
    layoutChildren (a :: l) d xo y =
      ((calculateNodePositions a d xo y).1 ::
        (layoutChildren l d xo
          (y + (calculateNodePositions a d xo y).2 + nodeVerticalSpacing)).1,
       (calculateNodePositions a d xo y).2 + nodeVerticalSpacing +
        (layoutChildren l d xo
          (y + (calculateNodePositions a d xo y).2 + nodeVerticalSpacing)).2) := by
  rw [layoutChildren]

theorem calculateNodePositions_eq (node : Node) (d xo yo : ℚ) :
    calculateNodePositions node d xo yo =
      if node.collapsed = false ∧ 0 < node.children.length then
        (.mk node (xo + d * nodeHorizontalSpacing)
          ((match (layoutChildren node.children (d + 1) xo yo).1 with
            | c0 :: _ => c0.y
            | [] => yo) +
            ((layoutChildren node.children (d + 1) xo yo).2 -
              nodeVerticalSpacing - nodeHeight) / 2)
          nodeWidth nodeHeight (layoutChildren node.children (d + 1) xo yo).1,
         (layoutChildren node.children (d + 1) xo yo).2 - nodeVerticalSpacing)
      else
        (.mk node (xo + d * nodeHorizontalSpacing) yo nodeWidth nodeHeight [],
          nodeHeight) := by
  rw [calculateNodePositions]

theorem positionedIds_layoutChildren (nodes : List Node)
    (ih : ∀ x ∈ nodes, ∀ d xo yo : ℚ,
      positionedIds (calculateNodePositions x d xo yo).1 = visibleIds x) :
    ∀ d xo yo : ℚ,
      ((layoutChildren nodes d xo yo).1).flatMap positionedIds =
        nodes.flatMap visibleIds := by
  induction nodes with
  | nil =>
    intro d xo yo
    rw [layoutChildren_nil]
    rfl
  | cons a l ihl =>
    intro d xo yo
    rw [layoutChildren_cons]
    simp only [List.flatMap_cons]
    rw [ih a (List.mem_cons_self a l) d xo yo,
      ihl (fun x hx => ih x (List.mem_cons_of_mem a hx)) d xo
        (yo + (calculateNodePositions a d xo yo).2 + nodeVerticalSpacing)]

/-- The positioned output contains exactly the visible ids: descendants of a
collapsed node are never traversed. -/
theorem positionedIds_calculateNodePositions (n : Node) :
    ∀ d xo yo : ℚ,
      positionedIds (calculateNodePositions n d xo yo).1 = visibleIds n := by
  induction n using Node.induct with
  | _ i c ch col ih =>
    intro d xo yo
    rw [calculateNodePositions_eq]
    by_cases hcol : col
    · subst hcol
      simp [Node.collapsed, Node.children, Node.id, positionedIds_def,
        visibleIds_def]
    · simp only [Bool.not_eq_true] at hcol
      subst hcol
      rcases ch with _ | ⟨a, l⟩
      · simp [Node.collapsed, Node.children, Node.id, positionedIds_def,
          visibleIds_def]
      · simp only [Node.collapsed, Node.children, List.length_cons,
          Nat.zero_lt_succ, and_true]
        rw [if_pos trivial]
        simp only [positionedIds_def, visibleIds_def, Bool.false_eq_true,
          if_false, Node.id]
        rw [positionedIds_layoutChildren (a :: l) ih (d + 1) xo yo]

/-- C8: a collapsed node contributes exactly one fixed node height as its
subtree height regardless of its descendants, its positioned children list is
empty — so (second conjunct) no hidden descendant id ever appears in the
positioned output, which lists exactly the visible ids — and its own box
position (x and y) is the same as for the node with no children at all. -/
theorem C8_collapsed_node_contributes_one_box :
    (∀ (i c : String) (ch : List Node) (d xo yo : ℚ),
      (calculateNodePositions (.mk i c ch true) d xo yo).2 = nodeHeight ∧
      ((calculateNodePositions (.mk i c ch true) d xo yo).1).children = [] ∧
      (calculateNodePositions (.mk i c ch true) d xo yo).1.x =
        (calculateNodePositions (.mk i c [] true) d xo yo).1.x ∧
      (calculateNodePositions (.mk i c ch true) d xo yo).1.y =
        (calculateNodePositions (.mk i c [] true) d xo yo).1.y ∧
      (calculateNodePositions (.mk i c ch true) d xo yo).1.x =
        xo + d * nodeHorizontalSpacing ∧
      (calculateNodePositions (.mk i c ch true) d xo yo).1.y = yo) ∧
    (∀ (n : Node) (d xo yo : ℚ),
      positionedIds (calculateNodePositions n d xo yo).1 = visibleIds n) := by
  constructor
  · intro i c ch d xo yo
    rw [calculateNodePositions_eq, calculateNodePositions_eq]
    simp [Node.collapsed, Node.children, PositionedNode.x, PositionedNode.y,
      PositionedNode.children]
  · exact positionedIds_calculateNodePositions

/-- x is purely a function of depth: each positioned node's x equals the x
origin plus its rendered depth times the horizontal spacing. -/
def xDepthInvariant : PositionedNode → ℚ → ℚ → Prop
  | .mk _ x _ _ _ ch, xo, d =>
    x = xo + d * nodeHorizontalSpacing ∧
    ∀ c ∈ ch.attach, xDepthInvariant c.1 xo (d + 1)
  decreasing_by
    have := List.sizeOf_lt_of_mem c.2
    simp only [PositionedNode.mk.sizeOf_spec]
    omega

theorem xDepthInvariant_def (n : Node) (x y w h : ℚ)
    (ch : List PositionedNode) (xo d : ℚ) :
    xDepthInvariant (.mk n x y w h ch) xo d ↔
      (x = xo + d * nodeHorizontalSpacing ∧
        ∀ c ∈ ch, xDepthInvariant c xo (d + 1)) := by
  rw [xDepthInvariant]
  constructor
  · rintro ⟨hx, hc⟩
    exact ⟨hx, fun c hcm => hc ⟨c, hcm⟩ (List.mem_attach ch ⟨c, hcm⟩)⟩
  · rintro ⟨hx, hc⟩
    exact ⟨hx, fun c _ => hc c.1 c.2⟩

theorem xDepthInvariant_layoutChildren (nodes : List Node)
    (ih : ∀ x ∈ nodes, ∀ d xo yo : ℚ,
      xDepthInvariant (calculateNodePositions x d xo yo).1 xo d) :
    ∀ d xo yo : ℚ, ∀ p ∈ (layoutChildren nodes d xo yo).1,
      xDepthInvariant p xo d := by
  induction nodes with
  | nil =>
    intro d xo yo p hp
    rw [layoutChildren_nil] at hp
    cases hp
  | cons a l ihl =>
    intro d xo yo p hp
    rw [layoutChildren_cons] at hp
    rcases List.mem_cons.mp hp with rfl | hp
    · exact ih a (List.mem_cons_self a l) d xo yo
    · exact ihl (fun x hx => ih x (List.mem_cons_of_mem a hx)) d xo _ p hp

theorem xDepthInvariant_calculateNodePositions (n : Node) :
    ∀ d xo yo : ℚ, xDepthInvariant (calculateNodePositions n d xo yo).1 xo d := by
  induction n using Node.induct with
  | _ i c ch col ih =>
    intro d xo yo
    rw [calculateNodePositions_eq]
    by_cases hguard : (Node.mk i c ch col).collapsed = false ∧
        0 < (Node.mk i c ch col).children.length
    · rw [if_pos hguard]
      rw [xDepthInvariant_def]
      exact ⟨rfl, fun p hp =>
        xDepthInvariant_layoutChildren ch
          (by simpa [Node.children] using ih) (d + 1) xo yo p
          (by simpa [Node.children] using hp)⟩
    · rw [if_neg hguard]
      rw [xDepthInvariant_def]
      exact ⟨rfl, fun p hp => absurd hp (List.not_mem_nil p)⟩

/-- C9: for a root with exactly two leaf children (none collapsed), the two
children's y-coordinates differ by exactly node height plus vertical spacing,
their x-coordinates coincide and exceed the root's x by exactly the
horizontal spacing, and the root's y equals the first child's y plus
(subtree height − node height)/2, which is the arithmetic midpoint of the two
children's y-coordinates; in general every positioned node's x is the x
origin plus its depth times the horizontal spacing. -/
theorem C9_two_leaf_children_layout :
    (∀ (ri rc ia ca ib cb : String) (xo yo : ℚ),
      ∃ pa pb,
        (calculateNodePositions
          (.mk ri rc [.mk ia ca [] false, .mk ib cb [] false] false)
          0 xo yo).1.children = [pa, pb] ∧
        pb.y - pa.y = nodeHeight + nodeVerticalSpacing ∧
        pa.x = pb.x ∧
        pa.x = (calculateNodePositions
          (.mk ri rc [.mk ia ca [] false, .mk ib cb [] false] false)
          0 xo yo).1.x + nodeHorizontalSpacing ∧
        (calculateNodePositions
          (.mk ri rc [.mk ia ca [] false, .mk ib cb [] false] false)
          0 xo yo).1.y =
          pa.y + ((calculateNodePositions
            (.mk ri rc [.mk ia ca [] false, .mk ib cb [] false] false)
            0 xo yo).2 - nodeHeight) / 2 ∧
        (calculateNodePositions
          (.mk ri rc [.mk ia ca [] false, .mk ib cb [] false] false)
          0 xo yo).1.y = (pa.y + pb.y) / 2) ∧
    (∀ (n : Node) (d xo yo : ℚ),
      xDepthInvariant (calculateNodePositions n d xo yo).1 xo d) := by
  constructor
  · intro ri rc ia ca ib cb xo yo
    have hA : calculateNodePositions (.mk ia ca [] false) 1 xo yo =
        (.mk (.mk ia ca [] false) (xo + 1 * nodeHorizontalSpacing) yo
          nodeWidth nodeHeight [], nodeHeight) := by
      rw [calculateNodePositions_eq]
      simp [Node.collapsed, Node.children]
    have hB : calculateNodePositions (.mk ib cb [] false) 1 xo
        (yo + nodeHeight + nodeVerticalSpacing) =
        (.mk (.mk ib cb [] false) (xo + 1 * nodeHorizontalSpacing)
          (yo + nodeHeight + nodeVerticalSpacing) nodeWidth nodeHeight [],
          nodeHeight) := by
      rw [calculateNodePositions_eq]
      simp [Node.collapsed, Node.children]
    have hL : layoutChildren [Node.mk ia ca [] false, Node.mk ib cb [] false]
        1 xo yo =
        ([.mk (.mk ia ca [] false) (xo + 1 * nodeHorizontalSpacing) yo
            nodeWidth nodeHeight [],
          .mk (.mk ib cb [] false) (xo + 1 * nodeHorizontalSpacing)
            (yo + nodeHeight + nodeVerticalSpacing) nodeWidth nodeHeight []],
         nodeHeight + nodeVerticalSpacing +
           (nodeHeight + nodeVerticalSpacing + 0)) := by
      rw [layoutChildren_cons, hA, layoutChildren_cons]
      simp only
      rw [hB, layoutChildren_nil]
    have hroot : calculateNodePositions
        (.mk ri rc [.mk ia ca [] false, .mk ib cb [] false] false) 0 xo yo =
        (.mk (.mk ri rc [.mk ia ca [] false, .mk ib cb [] false] false)
          (xo + 0 * nodeHorizontalSpacing)
          (yo + (nodeHeight + nodeVerticalSpacing +
            (nodeHeight + nodeVerticalSpacing + 0) - nodeVerticalSpacing -
            nodeHeight) / 2)
          nodeWidth nodeHeight
          [.mk (.mk ia ca [] false) (xo + 1 * nodeHorizontalSpacing) yo
            nodeWidth nodeHeight [],
           .mk (.mk ib cb [] false) (xo + 1 * nodeHorizontalSpacing)
            (yo + nodeHeight + nodeVerticalSpacing) nodeWidth nodeHeight []],
         nodeHeight + nodeVerticalSpacing +
           (nodeHeight + nodeVerticalSpacing + 0) - nodeVerticalSpacing) := by
      rw [calculateNodePositions_eq]
      rw [if_pos (by simp [Node.collapsed, Node.children])]
      simp only [Node.children, zero_add]
      rw [hL]
      rfl
    rw [hroot]
    refine ⟨.mk (.mk ia ca [] false) (xo + 1 * nodeHorizontalSpacing) yo
        nodeWidth nodeHeight [],
      .mk (.mk ib cb [] false) (xo + 1 * nodeHorizontalSpacing)
        (yo + nodeHeight + nodeVerticalSpacing) nodeWidth nodeHeight [],
      rfl, ?_, rfl, ?_, ?_, ?_⟩ <;>
      simp only [PositionedNode.x, PositionedNode.y] <;> ring
  · exact xDepthInvariant_calculateNodePositions

/-! ## C10: updateContent is a content-only frame -/

theorem stripContent_updateNodeContent (tid txt : String) (n : Node) :
    stripContent (updateNodeContent tid txt n) = stripContent n := by
  induction n using Node.induct with
  | _ i c ch col ih =>
    rw [updateNodeContent_def]
    by_cases hid : i = tid
    · rw [if_pos hid, stripContent_def, stripContent_def]
    · rw [if_neg hid, stripContent_def, stripContent_def, List.map_map]
      congr 1
      exact List.map_congr_left (fun a ha => ih a ha)

theorem jsGet?_map (f : Node → Node) (l : List Node) (i : Int) :
    jsGet? (l.map f) i = (jsGet? l i).map f := by
  unfold jsGet?
  by_cases h : i < 0
  · rw [if_pos h, if_pos h]
    rfl
  · rw [if_neg h, if_neg h, List.getElem?_map]

theorem getNodeAtPath?_updateNodeContent (tid txt : String) :
    ∀ (p : List Int) (n m : Node), getNodeAtPath? n p = some m →
      ∃ m', getNodeAtPath? (updateNodeContent tid txt n) p = some m' ∧
        m'.id = m.id ∧ m'.collapsed = m.collapsed ∧
        m'.children.length = m.children.length ∧
        (m.id ≠ tid → m'.content = m.content) := by
  intro p
  induction p with
  | nil =>
    intro n m hm
    obtain rfl : n = m := by simpa [getNodeAtPath?] using hm
    cases n with
    | mk i c ch col =>
      rw [updateNodeContent_def]
      by_cases hid : i = tid
      · rw [if_pos hid]
        exact ⟨_, rfl, rfl, rfl, by simp [Node.children], by
          intro hne
          exact absurd hid (by simpa [Node.id] using hne)⟩
      · rw [if_neg hid]
        exact ⟨_, rfl, rfl, rfl, by simp [Node.children], fun _ => rfl⟩
  | cons k rest ih =>
    intro n m hm
    cases n with
    | mk i c ch col =>
      simp only [getNodeAtPath?, Node.children, Option.bind_eq_some] at hm
      obtain ⟨a, ha, hrest⟩ := hm
      rw [updateNodeContent_def]
      by_cases hid : i = tid
      · rw [if_pos hid]
        exact ⟨m, by simp [getNodeAtPath?, Node.children, ha, hrest],
          rfl, rfl, rfl, fun _ => rfl⟩
      · rw [if_neg hid]
        obtain ⟨m', hm', hprops⟩ := ih a m hrest
        refine ⟨m', ?_, hprops⟩
        simp only [getNodeAtPath?, Node.children, jsGet?_map, ha,
          Option.map_some, Option.some_bind]
        exact hm'

/-- C10: `updateContent` preserves the whole shape of the tree — the same
ids, the same children order and the same collapsed flag at every node
(captured by equality of the content-erased trees) — and every node resolved
by a path keeps its id; its content is unchanged whenever its id differs
from the target id, so the result differs from the input at most in the
content fields of nodes carrying the given id. -/
theorem C10_updateContent_is_content_only_frame (tid txt : String)
    (root : Node) :
    stripContent (handleUpdateContent tid txt root) = stripContent root ∧
    (∀ (p : List Int) (m : Node), getNodeAtPath? root p = some m →
      ∃ m', getNodeAtPath? (handleUpdateContent tid txt root) p = some m' ∧
        m'.id = m.id ∧ m'.collapsed = m.collapsed ∧
        m'.children.length = m.children.length ∧
        (m.id ≠ tid → m'.content = m.content)) :=
  ⟨stripContent_updateNodeContent tid txt root,
   fun p m hm => getNodeAtPath?_updateNodeContent tid txt p root m hm⟩

/-- Witness for C10 at a concrete input: updating id `"b"` in a root with the
single child `a` keeps the shape and leaves the child's content `"A"`
untouched. -/
theorem C10_witness :
    stripContent (handleUpdateContent "b" "Z"
        (.mk "0" "Root" [.mk "a" "A" [] false] false)) =
      stripContent (.mk "0" "Root" [.mk "a" "A" [] false] false) ∧
    ∃ m', getNodeAtPath? (handleUpdateContent "b" "Z"
        (.mk "0" "Root" [.mk "a" "A" [] false] false)) [0] = some m' ∧
      m'.id = "a" ∧ m'.content = "A" := by
  refine ⟨(C10_updateContent_is_content_only_frame "b" "Z" _).1, ?_⟩
  obtain ⟨m', hm', hid, _, _, hcontent⟩ :=
    (C10_updateContent_is_content_only_frame "b" "Z"
      (.mk "0" "Root" [.mk "a" "A" [] false] false)).2 [0]
      (.mk "a" "A" [] false) rfl
  exact ⟨m', hm', by simpa [Node.id] using hid,
    by simpa [Node.content] using hcontent (by simp [Node.id])⟩

/-! ## C7: addChild appends exactly one fresh node under the parent -/

theorem Node.id_addChildToNode (p : String) (newN x : Node) :
    (addChildToNode p newN x).id = x.id := by
  cases x with
  | mk i c ch col =>
    rw [addChildToNode_def]
    by_cases h : i = p <;> simp [h, Node.id]

/-- Searching for the parent id in the updated tree finds the parent with the
new node appended at the end of its children. -/
theorem findById?_addChildToNode_self (p : String) (newN : Node) (n : Node) :
    findById? p (addChildToNode p newN n) =
      (findById? p n).map (fun t => t.withChildren (t.children ++ [newN])) := by
  induction n using Node.induct with
  | _ i c ch col ih =>
    rw [addChildToNode_def]
    by_cases hid : i = p
    · rw [if_pos hid, findById?_def, findById?_def, if_pos hid, if_pos hid]
      simp [Node.withChildren, Node.children]
    · rw [if_neg hid, findById?_def, findById?_def, if_neg hid, if_neg hid]
      rw [List.filterMap_map]
      simp only [Function.comp_def]
      rw [List.filterMap_congr (fun x hx => ih x hx),
        ← List.map_filterMap, List.head?_map]

/-- The observations C7 requires to be unchanged on every node other than the
parent: id, content, collapsed flag, and the ordered list of children ids. -/
def contentFrameR (m' m : Node) : Prop :=
  m'.id = m.id ∧ m'.content = m.content ∧ m'.collapsed = m.collapsed ∧
    m'.children.map Node.id = m.children.map Node.id

theorem contentFrameR_refl (m : Node) : contentFrameR m m :=
  ⟨rfl, rfl, rfl, rfl⟩

/-- `contentFrameR` lifted to the optional result of a search: both searches
fail, or both succeed on related nodes. -/
def optionFrameR (o' o : Option Node) : Prop :=
  (o' = none ∧ o = none) ∨
    ∃ m' m, o' = some m' ∧ o = some m ∧ contentFrameR m' m

theorem contentFrameR_addChildToNode (p : String) (newN : Node) (x : Node)
    (hx : x.id ≠ p) : contentFrameR (addChildToNode p newN x) x := by
  cases x with
  | mk i c ch col =>
    rw [addChildToNode_def, if_neg (by simpa [Node.id] using hx)]
    refine ⟨rfl, rfl, rfl, ?_⟩
    simp only [Node.children, List.map_map]
    exact List.map_congr_left fun a _ => Node.id_addChildToNode p newN a

theorem optionFrameR_heads (q : String) (u : Node → Node) (ch : List Node)
    (ih : ∀ x ∈ ch, optionFrameR (findById? q (u x)) (findById? q x)) :
    optionFrameR ((ch.map u).filterMap (findById? q)).head?
      ((ch.filterMap (findById? q)).head? ) := by
  induction ch with
  | nil => exact Or.inl ⟨rfl, rfl⟩
  | cons a l ihl =>
    have ha := ih a (List.mem_cons_self a l)
    rw [List.map_cons, List.filterMap_cons, List.filterMap_cons]
    rcases ha with ⟨h1, h2⟩ | ⟨m', m, h1, h2, hr⟩
    · rw [h1, h2]
      exact ihl fun x hx => ih x (List.mem_cons_of_mem a hx)
    · rw [h1, h2]
      exact Or.inr ⟨m', m, rfl, rfl, hr⟩

/-- Searching for any id other than the parent's (and other than the fresh
id) finds, in the updated tree, a node with the same id, content, collapsed
flag and children-id order as in the original tree — and fails iff it fails
in the original. -/
theorem findById?_addChildToNode_other (p : String) (newN : Node)
    (q : String) (hqp : q ≠ p) (hqf : newN.id ≠ q) (hnc : newN.children = [])
    (n : Node) :
    optionFrameR (findById? q (addChildToNode p newN n)) (findById? q n) := by
  induction n using Node.induct with
  | _ i c ch col ih =>
    rw [addChildToNode_def]
    by_cases hiq : i = q
    · rw [if_neg (fun h => hqp (hiq.symm.trans h))]
      rw [findById?_def, findById?_def, if_pos hiq, if_pos hiq]
      refine Or.inr ⟨_, _, rfl, rfl, rfl, rfl, rfl, ?_⟩
      simp only [Node.children, List.map_map]
      exact List.map_congr_left fun a _ => Node.id_addChildToNode p newN a
    · by_cases hip : i = p
      · rw [if_pos hip, findById?_def, findById?_def, if_neg hiq, if_neg hiq]
        rw [List.filterMap_append]
        have hnewN : findById? q newN = none := by
          cases newN with
          | mk ni nc nch ncol =>
            rw [findById?_def, if_neg (by simpa [Node.id] using hqf),
              (by simpa [Node.children] using hnc : nch = ([] : List Node))]
            rfl
        rw [List.filterMap_cons, hnewN, List.filterMap_nil, List.append_nil]
        rcases h : (ch.filterMap (findById? q)).head? with _ | m
        · exact Or.inl ⟨rfl, rfl⟩
        · exact Or.inr ⟨m, m, rfl, rfl, contentFrameR_refl m⟩
      · rw [if_neg hip, findById?_def, findById?_def, if_neg hiq, if_neg hiq]
        exact optionFrameR_heads q (addChildToNode p newN) ch ih

/-- An id that occurs in a tree is found by `findById?`. -/
theorem findById?_isSome_of_mem (q : String) (n : Node)
    (hq : q ∈ nodeIds n) : ∃ m, findById? q n = some m := by
  induction n using Node.induct with
  | _ i c ch col ih =>
    rw [findById?_def]
    by_cases hiq : i = q
    · rw [if_pos hiq]
      exact ⟨_, rfl⟩
    · rw [if_neg hiq]
      rw [nodeIds_def] at hq
      rcases List.mem_cons.mp hq with rfl | hq
      · exact absurd rfl hiq
      · obtain ⟨a, ha, hqa⟩ := List.mem_flatMap.mp hq
        obtain ⟨m, hm⟩ := ih a ha hqa
        have hmem : m ∈ ch.filterMap (findById? q) :=
          List.mem_filterMap.mpr ⟨a, ha, hm⟩
        rcases h : (ch.filterMap (findById? q)).head? with _ | m'
        · rw [List.head?_eq_none_iff] at h
          rw [h] at hmem
          cases hmem
        · exact ⟨m', rfl⟩

/-- C7: with unique ids, a present parent id and a fresh id, `addChild`
appends exactly one new node — with placeholder content `"New Node"` and no
children — at the END of the parent's children (so the parent's child count
grows by exactly 1), while every other node keeps its id, content, collapsed
flag and ordered children-id list. -/
theorem C7_addChild_appends_one_fresh_child (freshId p : String) (root : Node)
    (hnodup : (nodeIds root).Nodup) (hp : p ∈ nodeIds root)
    (hfresh : freshId ∉ nodeIds root) :
    (∃ n, findById? p root = some n ∧
      findById? p (handleAddChild freshId p root) =
        some (n.withChildren
          (n.children ++ [Node.mk freshId "New Node" [] false])) ∧
      (n.withChildren
        (n.children ++ [Node.mk freshId "New Node" [] false])).children.length =
        n.children.length + 1) ∧
    (∀ q ∈ nodeIds root, q ≠ p →
      ∃ m m', findById? q root = some m ∧
        findById? q (handleAddChild freshId p root) = some m' ∧
        contentFrameR m' m) := by
  have _hnodup := hnodup
  constructor
  · obtain ⟨n, hn⟩ := findById?_isSome_of_mem p root hp
    refine ⟨n, hn, ?_, ?_⟩
    · rw [handleAddChild, findById?_addChildToNode_self, hn]
      rfl
    · cases n with
      | mk i c ch col => simp [Node.withChildren, Node.children]
  · intro q hq hqp
    have hqf : (Node.mk freshId "New Node" [] false).id ≠ q := by
      intro h
      exact hfresh ((by simpa [Node.id] using h : freshId = q) ▸ hq)
    have hopt := findById?_addChildToNode_other p
      (Node.mk freshId "New Node" [] false) q hqp hqf rfl root
    obtain ⟨m, hm⟩ := findById?_isSome_of_mem q root hq
    rcases hopt with ⟨_, h2⟩ | ⟨m', m2, h1, h2, hr⟩
    · rw [hm] at h2
      cases h2
    · exact ⟨m2, m', h2, h1, hr⟩

/-- Witness for C7 on the tree `root("0")[child("a")]` with fresh id `"f"`
and parent `"a"`: the child gains exactly the new node and the root is
untouched. -/
theorem C7_witness :
    ((nodeIds (Node.mk "0" "Root" [.mk "a" "A" [] false] false)).Nodup ∧
      "a" ∈ nodeIds (Node.mk "0" "Root" [.mk "a" "A" [] false] false) ∧
      "f" ∉ nodeIds (Node.mk "0" "Root" [.mk "a" "A" [] false] false)) ∧
    ((∃ n, findById? "a" (Node.mk "0" "Root" [.mk "a" "A" [] false] false) =
        some n ∧
      findById? "a" (handleAddChild "f" "a"
          (Node.mk "0" "Root" [.mk "a" "A" [] false] false)) =
        some (n.withChildren
          (n.children ++ [Node.mk "f" "New Node" [] false])) ∧
      (n.withChildren
        (n.children ++ [Node.mk "f" "New Node" [] false])).children.length =
        n.children.length + 1) ∧
    (∀ q ∈ nodeIds (Node.mk "0" "Root" [.mk "a" "A" [] false] false),
      q ≠ "a" →
      ∃ m m', findById? q (Node.mk "0" "Root" [.mk "a" "A" [] false] false) =
          some m ∧
        findById? q (handleAddChild "f" "a"
          (Node.mk "0" "Root" [.mk "a" "A" [] false] false)) = some m' ∧
        contentFrameR m' m)) := by
  have h1 : (nodeIds (Node.mk "0" "Root" [.mk "a" "A" [] false] false)).Nodup := by
    simp [nodeIds_def]
  have h2 : "a" ∈ nodeIds (Node.mk "0" "Root" [.mk "a" "A" [] false] false) := by
    simp [nodeIds_def]
  have h3 : "f" ∉ nodeIds (Node.mk "0" "Root" [.mk "a" "A" [] false] false) := by
    simp [nodeIds_def]
  exact ⟨⟨h1, h2, h3⟩,
    C7_addChild_appends_one_fresh_child "f" "a" _ h1 h2 h3⟩

/-! ## Helper lemmas for the path-based operations -/

theorem Node.children_withChildren (n : Node) (l : List Node) :
    (n.withChildren l).children = l := by
  cases n
  rfl

theorem Node.withChildren_children (n : Node) :
    n.withChildren n.children = n := by
  cases n
  rfl

theorem Node.withChildren_withChildren (n : Node) (l l' : List Node) :
    (n.withChildren l).withChildren l' = n.withChildren l' := by
  cases n
  rfl

theorem jsGet?_eq_some_iff (l : List Node) (k : Int) (a : Node) :
    jsGet? l k = some a ↔
      0 ≤ k ∧ ∃ h : k.toNat < l.length, l[k.toNat] = a := by
  unfold jsGet?
  by_cases h : k < 0
  · rw [if_pos h]
    simp
    omega
  · rw [if_neg h]
    rw [List.getElem?_eq_some_iff]
    simp
    omega

theorem jsGetThrow_eq_ok (l : List Node) (k : Int) (a : Node)
    (h : jsGet? l k = some a) : jsGetThrow l k = .ok a := by
  unfold jsGetThrow
  rw [h]

theorem jsSlice_none_eq_drop (l : List Node) (s : Int) (hs : 0 ≤ s) :
    jsSlice l s none = l.drop s.toNat := by
  unfold jsSlice jsRelIndex
  simp only [List.take_length]
  rw [if_neg (by omega)]
  rcases le_or_lt s.toNat l.length with h | h
  · rw [min_eq_left h]
  · rw [min_eq_right (by omega), List.drop_length,
      List.drop_eq_nil_of_le (by omega)]

theorem jsSlice_zero_eq_take (l : List Node) (e : Int) (he : 0 ≤ e) :
    jsSlice l 0 (some e) = l.take e.toNat := by
  unfold jsSlice jsRelIndex
  simp only
  rw [if_neg (by omega), if_neg (by omega)]
  simp only [Int.toNat_zero, Nat.zero_min, List.drop_zero]
  rcases le_or_lt e.toNat l.length with h | h
  · rw [min_eq_left h]
  · rw [min_eq_right (by omega), List.take_length,
      List.take_of_length_le (by omega)]

theorem enumFrom_flatMap_keep (repl : List Node) (pi : Int) :
    ∀ (l : List Node) (s : Nat), (pi < s ∨ (s + l.length : Int) ≤ pi) →
      ((List.enumFrom s l).flatMap (fun p =>
        if (p.1 : Int) = pi then repl else [p.2])) = l := by
  intro l
  induction l with
  | nil => intro s _; rfl
  | cons a t ih =>
    intro s hs
    rw [List.enumFrom_cons, List.flatMap_cons]
    rw [if_neg (by simp at hs ⊢; omega)]
    rw [ih (s + 1) (by simp at hs ⊢; omega)]
    rfl

theorem enumFrom_flatMap_replace (repl : List Node) (pi : Int) :
    ∀ (l : List Node) (s : Nat), (s : Int) ≤ pi → (pi : Int) < s + l.length →
      ((List.enumFrom s l).flatMap (fun p =>
        if (p.1 : Int) = pi then repl else [p.2])) =
        l.take (pi.toNat - s) ++ repl ++ l.drop (pi.toNat - s + 1) := by
  intro l
  induction l with
  | nil => intro s h1 h2; simp at h2; omega
  | cons a t ih =>
    intro s h1 h2
    rw [List.enumFrom_cons, List.flatMap_cons]
    by_cases hhit : (s : Int) = pi
    · rw [if_pos hhit]
      have hz : pi.toNat - s = 0 := by omega
      rw [hz, List.take_zero, List.nil_append, List.drop_one, List.tail_cons]
      rw [enumFrom_flatMap_keep repl pi t (s + 1) (by omega)]
    · rw [if_neg hhit]
      have hpos : 0 < pi.toNat - s := by omega
      have hts : pi.toNat - s = (pi.toNat - (s + 1)) + 1 := by omega
      rw [ih (s + 1) (by omega) (by simp at h2 ⊢; omega)]
      rw [hts]
      simp only [List.take_succ_cons, List.drop_succ_cons, List.cons_append,
        List.singleton_append, List.nil_append]

/-- The `flatMap`-over-`enum` splice of `handleOutdent` replaces exactly the
in-range position `pi` by `repl`. -/
theorem enum_flatMap_replace (repl : List Node) (pi : Int) (l : List Node)
    (h1 : 0 ≤ pi) (h2 : pi.toNat < l.length) :
    (l.enum.flatMap (fun p =>
        if (p.1 : Int) = pi then repl else [p.2])) =
      l.take pi.toNat ++ repl ++ l.drop (pi.toNat + 1) := by
  have := enumFrom_flatMap_replace repl pi l 0 (by omega) (by omega)
  simpa [List.enum] using this

theorem updateNodeAtPath_nil (n : Node)
    (u : Node → Int → List Int → Except Unit (Option Node)) :
    updateNodeAtPath n [] u = u n 0 [] := rfl

theorem updateNodeAtPath_cons_some (n : Node) (k : Int) (rest : List Int)
    (u : Node → Int → List Int → Except Unit (Option Node))
    (hk : 0 ≤ k) (hlt : k.toNat < n.children.length) (c : Node)
    (hrec : updateNodeAtPath n.children[k.toNat] rest u = .ok (some c)) :
    updateNodeAtPath n (k :: rest) u =
      .ok (some (n.withChildren (n.children.set k.toNat c))) := by
  rw [updateNodeAtPath]
  rw [dif_pos (show 0 ≤ k ∧ k < (n.children.length : Int) by omega)]
  simp only [List.get_eq_getElem]
  rw [hrec]

theorem getNodeAtPath?_cons (n : Node) (k : Int) (rest : List Int) :
    getNodeAtPath? n (k :: rest) =
      (jsGet? n.children k).bind (fun c => getNodeAtPath? c rest) := rfl

/-- Resolving a path and then rewriting at it: if the updater succeeds on the
resolved node, `updateNodeAtPath` succeeds and the rewritten tree resolves at
the same path to the updater's result. -/
theorem updateNodeAtPath_resolve
    (u : Node → Int → List Int → Except Unit (Option Node)) :
    ∀ (pp : List Int) (n g : Node), getNodeAtPath? n pp = some g →
      ∀ g', u g 0 [] = .ok (some g') →
      ∃ r, updateNodeAtPath n pp u = .ok (some r) ∧
        getNodeAtPath? r pp = some g' := by
  intro pp
  induction pp with
  | nil =>
    intro n g hg g' hu
    obtain rfl : n = g := by simpa [getNodeAtPath?] using hg
    exact ⟨g', by rw [updateNodeAtPath_nil, hu], rfl⟩
  | cons k rest ih =>
    intro n g hg g' hu
    rw [getNodeAtPath?_cons, Option.bind_eq_some] at hg
    obtain ⟨a, ha, hrest⟩ := hg
    rw [jsGet?_eq_some_iff] at ha
    obtain ⟨hk, hlt, hget⟩ := ha
    obtain ⟨rc, hrc, hrcget⟩ := ih a g (hrest) g' hu
    refine ⟨n.withChildren (n.children.set k.toNat rc), ?_, ?_⟩
    · exact updateNodeAtPath_cons_some n k rest u hk hlt rc (by rw [hget, hrc])
    · rw [getNodeAtPath?_cons, Node.children_withChildren]
      have hjs : jsGet? (n.children.set k.toNat rc) k = some rc := by
        rw [jsGet?_eq_some_iff]
        exact ⟨hk, by simpa using hlt, by simp [List.getElem_set_self]⟩
      rw [hjs, Option.some_bind, hrcget]

/-- Round trip: if the second updater undoes the first on the resolved node,
`updateNodeAtPath` along the same path undoes the first rewrite. -/
theorem updateNodeAtPath_roundtrip
    (u1 u2 : Node → Int → List Int → Except Unit (Option Node)) :
    ∀ (pp : List Int) (n g : Node), getNodeAtPath? n pp = some g →
      ∀ g1, u1 g 0 [] = .ok (some g1) → u2 g1 0 [] = .ok (some g) →
      ∃ r, updateNodeAtPath n pp u1 = .ok (some r) ∧
        updateNodeAtPath r pp u2 = .ok (some n) := by
  intro pp
  induction pp with
  | nil =>
    intro n g hg g1 h1 h2
    obtain rfl : n = g := by simpa [getNodeAtPath?] using hg
    exact ⟨g1, by rw [updateNodeAtPath_nil, h1],
      by rw [updateNodeAtPath_nil, h2]⟩
  | cons k rest ih =>
    intro n g hg g1 h1 h2
    rw [getNodeAtPath?_cons, Option.bind_eq_some] at hg
    obtain ⟨a, ha, hrest⟩ := hg
    rw [jsGet?_eq_some_iff] at ha
    obtain ⟨hk, hlt, hget⟩ := ha
    obtain ⟨rc, hrc1, hrc2⟩ := ih a g hrest g1 h1 h2
    refine ⟨n.withChildren (n.children.set k.toNat rc), ?_, ?_⟩
    · exact updateNodeAtPath_cons_some n k rest u1 hk hlt rc (by rw [hget, hrc1])
    · have hlt' : k.toNat < (n.withChildren
          (n.children.set k.toNat rc)).children.length := by
        rw [Node.children_withChildren]
        simpa using hlt
      have hgetset : (n.withChildren
          (n.children.set k.toNat rc)).children[k.toNat] = rc := by
        simp [Node.children_withChildren, List.getElem_set_self]
      have := updateNodeAtPath_cons_some
        (n.withChildren (n.children.set k.toNat rc)) k rest u2 hk hlt' a
        (by rw [hgetset, hrc2])
      rw [this, Node.children_withChildren, List.set_set, ← hget,
        Node.withChildren_withChildren]
      rw [show n.children.set k.toNat n.children[k.toNat] = n.children
        from by
          apply List.ext_getElem
          · simp
          · intro m hm1 hm2
            by_cases hmk : m = k.toNat
            · subst hmk
              simp [List.getElem_set_self]
            · rw [List.getElem_set]
              rw [if_neg (fun hh => hmk hh.symm)]]
      rw [Node.withChildren_children]

/-- What the outdent updater does to the resolved grandparent when both the
parent index and the target index are in range: the parent keeps only the
children before the target, the target gains the following siblings as
trailing children, and the pair replaces the parent's slot. -/
theorem outdentUpdater_leaf (G P T : Node) (pi j : Int)
    (hP : jsGet? G.children pi = some P)
    (hT : jsGet? P.children j = some T) :
    outdentUpdater pi j G 0 [] = .ok (some (G.withChildren
      (G.children.take pi.toNat ++
        [P.withChildren (P.children.take j.toNat),
         T.withChildren (T.children ++ P.children.drop (j.toNat + 1))] ++
        G.children.drop (pi.toNat + 1)))) := by
  obtain ⟨hpi0, hpilt, hPget⟩ := (jsGet?_eq_some_iff _ _ _).mp hP
  obtain ⟨hj0, hjlt, hTget⟩ := (jsGet?_eq_some_iff _ _ _).mp hT
  unfold outdentUpdater
  rw [jsGetThrow_eq_ok _ _ _ hP]
  simp only [bind, Except.bind]
  rw [jsGetThrow_eq_ok _ _ _ hT]
  simp only [pure, Except.pure]
  rw [jsSlice_none_eq_drop _ _ (by omega), jsSlice_zero_eq_take _ _ hj0]
  rw [show (j + 1).toNat = j.toNat + 1 by omega]
  rw [enum_flatMap_replace _ pi _ hpi0 hpilt]

/-- C4: for a resolving path of depth ≥ 2 (grandparent `G` at `pp`, parent
`P` at index `pi`, target `T` at index `j`), outdent leaves `P` with only the
children before `T`, promotes `T` into `G`'s children immediately after `P`,
and appends the siblings that followed `T` after `T`'s original children, in
order; for any path of depth < 2 the tree is returned unchanged. -/
theorem C4_outdent_promotes_after_parent (root G P T : Node) (pp : List Int)
    (pi j : Int)
    (hG : getNodeAtPath? root pp = some G)
    (hP : jsGet? G.children pi = some P)
    (hT : jsGet? P.children j = some T) :
    (∃ r, handleOutdent root (pp ++ [pi, j]) = .ok r ∧
      getNodeAtPath? r pp = some (G.withChildren
        (G.children.take pi.toNat ++
          [P.withChildren (P.children.take j.toNat),
           T.withChildren (T.children ++ P.children.drop (j.toNat + 1))] ++
          G.children.drop (pi.toNat + 1)))) ∧
    (∀ q : List Int, q.length < 2 → handleOutdent root q = .ok root) := by
  constructor
  · obtain ⟨r, hr, hrget⟩ := updateNodeAtPath_resolve (outdentUpdater pi j)
      pp root G hG _ (outdentUpdater_leaf G P T pi j hP hT)
    refine ⟨r, ?_, hrget⟩
    have hsplit : pp ++ [pi, j] = (pp ++ [pi]) ++ [j] := by simp
    rw [hsplit]
    simp only [handleOutdent]
    rw [if_neg (by simp)]
    simp only [List.getLast?_concat, List.dropLast_concat]
    rw [hr]
    rfl
  · intro q hq
    simp only [handleOutdent]
    rw [if_pos hq]

/-- Witness for C4 on the spec's own example: `P` with children `[A, B, C]`,
outdenting `B` (path `[0, 1]` under the root) leaves `P` with `[A]` and makes
`B`, now right after `P`, the parent of `[C]`. -/
theorem C4_witness :
    ∃ r, handleOutdent
        (.mk "g" "G"
          [.mk "p" "P" [.mk "a" "A" [] false, .mk "b" "B" [] false,
            .mk "c" "C" [] false] false] false) ([] ++ [0, 1]) = .ok r ∧
      getNodeAtPath? r [] = some
        ((Node.mk "g" "G"
          [.mk "p" "P" [.mk "a" "A" [] false, .mk "b" "B" [] false,
            .mk "c" "C" [] false] false] false).withChildren
          (((Node.mk "g" "G"
            [.mk "p" "P" [.mk "a" "A" [] false, .mk "b" "B" [] false,
              .mk "c" "C" [] false] false] false).children).take 0 ++
            [(Node.mk "p" "P" [.mk "a" "A" [] false, .mk "b" "B" [] false,
                .mk "c" "C" [] false] false).withChildren
              ((Node.mk "p" "P" [.mk "a" "A" [] false, .mk "b" "B" [] false,
                .mk "c" "C" [] false] false).children.take 1),
             (Node.mk "b" "B" [] false).withChildren
              ((Node.mk "b" "B" [] false).children ++
                (Node.mk "p" "P" [.mk "a" "A" [] false, .mk "b" "B" [] false,
                  .mk "c" "C" [] false] false).children.drop 2)] ++
            ((Node.mk "g" "G"
              [.mk "p" "P" [.mk "a" "A" [] false, .mk "b" "B" [] false,
                .mk "c" "C" [] false] false] false).children).drop 1)) :=
  (C4_outdent_promotes_after_parent
    (.mk "g" "G"
      [.mk "p" "P" [.mk "a" "A" [] false, .mk "b" "B" [] false,
        .mk "c" "C" [] false] false] false)
    (.mk "g" "G"
      [.mk "p" "P" [.mk "a" "A" [] false, .mk "b" "B" [] false,
        .mk "c" "C" [] false] false] false)
    (.mk "p" "P" [.mk "a" "A" [] false, .mk "b" "B" [] false,
      .mk "c" "C" [] false] false)
    (.mk "b" "B" [] false) [] 0 1 rfl rfl rfl).1

/-- What the indent updater does to the resolved parent when the target index
and its predecessor are in range: the target is removed from the children and
appended as last child of its preceding sibling. -/
theorem indentUpdater_leaf (G t prev : Node) (i : Int)
    (ht : jsGet? G.children i = some t)
    (hprev : jsGet? G.children (i - 1) = some prev) :
    indentUpdater i G 0 [] = .ok (some (G.withChildren
      ((G.children.eraseIdx i.toNat).set (i.toNat - 1)
        (prev.withChildren (prev.children ++ [t]))))) := by
  unfold indentUpdater
  rw [jsGetThrow_eq_ok _ _ _ ht]
  simp only [bind, Except.bind]
  rw [jsGetThrow_eq_ok _ _ _ hprev]
  rfl

/-- The outdent updater at the indented node's new position (last child of
its former preceding sibling) undoes the indent updater exactly. -/
theorem outdentUpdater_undoes_indentUpdater (G t prev : Node) (i : Int)
    (ht : jsGet? G.children i = some t)
    (hprev : jsGet? G.children (i - 1) = some prev)
    (hi : 1 ≤ i) :
    outdentUpdater (i - 1) (prev.children.length : Int)
      (G.withChildren ((G.children.eraseIdx i.toNat).set (i.toNat - 1)
        (prev.withChildren (prev.children ++ [t])))) 0 [] = .ok (some G) := by
  obtain ⟨hi0, hilt, htget⟩ := (jsGet?_eq_some_iff _ _ _).mp ht
  obtain ⟨hp0, hplt, hpget⟩ := (jsGet?_eq_some_iff _ _ _).mp hprev
  have hp1 : (i - 1).toNat = i.toNat - 1 := by omega
  simp only [hp1] at hplt hpget
  have hi1 : 1 ≤ i.toNat := by omega
  set cs := G.children with hcs
  set A := cs.take (i.toNat - 1) with hA
  set B := cs.drop (i.toNat + 1) with hB
  have hAlen : A.length = i.toNat - 1 := by
    rw [hA, List.length_take]
    omega
  have htake : cs.take i.toNat = A ++ [prev] := by
    rw [hA, show i.toNat = (i.toNat - 1) + 1 by omega, List.take_succ]
    congr 1
    rw [List.getElem?_eq_getElem (by omega : i.toNat - 1 < cs.length)]
    rw [hpget]
    rfl
  have herase : cs.eraseIdx i.toNat = (A ++ [prev]) ++ B := by
    rw [List.eraseIdx_eq_take_drop_succ, htake, hB]
  set prevN := prev.withChildren (prev.children ++ [t]) with hprevN
  have hset : (cs.eraseIdx i.toNat).set (i.toNat - 1) prevN =
      A ++ prevN :: B := by
    rw [herase, List.set_append,
      if_pos (by simp only [List.length_append, hAlen, List.length_cons]; omega),
      List.set_append, if_neg (by omega), hAlen, Nat.sub_self]
    simp
  rw [hset]
  unfold outdentUpdater
  have hgetP : jsGet? (G.withChildren (A ++ prevN :: B)).children (i - 1) =
      some prevN := by
    rw [Node.children_withChildren]
    unfold jsGet?
    rw [if_neg (by omega)]
    rw [hp1, show i.toNat - 1 = A.length from hAlen.symm]
    rw [List.getElem?_append_right (Nat.le_refl _), Nat.sub_self]
    rw [List.getElem?_cons_zero]
  rw [jsGetThrow_eq_ok _ _ _ hgetP]
  simp only [bind, Except.bind]
  have hgetT : jsGet? prevN.children (prev.children.length : Int) = some t := by
    rw [hprevN, Node.children_withChildren]
    unfold jsGet?
    rw [if_neg (by omega)]
    rw [show ((prev.children.length : Int)).toNat = prev.children.length
      by omega]
    exact List.getElem?_concat_length _ _
  rw [jsGetThrow_eq_ok _ _ _ hgetT]
  simp only [pure, Except.pure]
  have hfollow : jsSlice prevN.children ((prev.children.length : Int) + 1)
      none = [] := by
    rw [jsSlice_none_eq_drop _ _ (by omega), hprevN, Node.children_withChildren]
    rw [show (((prev.children.length : Int)) + 1).toNat =
      prev.children.length + 1 by omega]
    apply List.drop_eq_nil_of_le
    simp
  have hkeep : jsSlice prevN.children 0 (some (prev.children.length : Int)) =
      prev.children := by
    rw [jsSlice_zero_eq_take _ _ (by omega), hprevN, Node.children_withChildren]
    rw [show ((prev.children.length : Int)).toNat = prev.children.length
      by omega]
    exact List.take_left ..
  rw [hfollow, hkeep]
  simp only [hprevN, Node.withChildren_withChildren, Node.withChildren_children,
    List.append_nil]
  have hreplace : ((G.withChildren (A ++ prevN :: B)).children.enum.flatMap
      (fun p => if (p.1 : Int) = i - 1 then [prev, t] else [p.2])) = cs := by
    rw [Node.children_withChildren]
    rw [enum_flatMap_replace _ _ _ (by omega)
      (by simp only [hp1, List.length_append, hAlen, List.length_cons]; omega)]
    rw [hp1]
    have ht1 : (A ++ prevN :: B).take (i.toNat - 1) = A := by
      rw [List.take_append_eq_append_take, List.take_of_length_le (by omega),
        hAlen, Nat.sub_self, List.take_zero, List.append_nil]
    have ht2 : (A ++ prevN :: B).drop (i.toNat - 1 + 1) = B := by
      rw [List.drop_append_eq_append_drop,
        List.drop_eq_nil_of_le (by omega), hAlen,
        show i.toNat - 1 + 1 - (i.toNat - 1) = 1 by omega]
      simp
    rw [ht1, ht2]
    have hcs2 : cs = A ++ prev :: cs.drop i.toNat := by
      have h3 : cs = A ++ cs[i.toNat - 1] :: cs.drop (i.toNat - 1 + 1) := by
        rw [hA, ← List.drop_eq_getElem_cons hplt]
        exact (List.take_append_drop _ _).symm
      rw [hpget] at h3
      rw [show i.toNat - 1 + 1 = i.toNat by omega] at h3
      exact h3
    have hdrop : cs.drop i.toNat = t :: B := by
      rw [List.drop_eq_getElem_cons hilt, htget, hB]
    rw [hcs2, hdrop]
    simp
  rw [hreplace, hcs, Node.withChildren_children]

theorem getNodeAtPath?_append : ∀ (p q : List Int) (n : Node),
    getNodeAtPath? n (p ++ q) =
      (getNodeAtPath? n p).bind (fun m => getNodeAtPath? m q) := by
  intro p
  induction p with
  | nil => intro q n; rfl
  | cons k rest ih =>
    intro q n
    rw [List.cons_append, getNodeAtPath?_cons, getNodeAtPath?_cons,
      Option.bind_assoc]
    cases jsGet? n.children k with
    | none => rfl
    | some a =>
      rw [Option.some_bind, Option.some_bind, ih]

/-- C3: on a resolving path whose last index is at least 1, `indent` followed
by `outdent` at the indented node's new position — last child of its former
preceding sibling `prev`, i.e. the path `pp ++ [i-1, prev.children.length]` —
restores the original tree exactly. -/
theorem C3_indent_then_outdent_roundtrip (root t prev : Node) (pp : List Int)
    (i : Int) (hi : 1 ≤ i)
    (hres : getNodeAtPath? root (pp ++ [i]) = some t)
    (hprev : getNodeAtPath? root (pp ++ [i - 1]) = some prev) :
    (handleIndent root (pp ++ [i])).bind
      (fun r => handleOutdent r (pp ++ [i - 1, (prev.children.length : Int)])) =
      .ok root := by
  rw [getNodeAtPath?_append] at hres hprev
  cases hG : getNodeAtPath? root pp with
  | none =>
    rw [hG] at hres
    cases hres
  | some G =>
    rw [hG, Option.some_bind] at hres hprev
    have ht : jsGet? G.children i = some t := by
      rw [getNodeAtPath?_cons] at hres
      cases hj : jsGet? G.children i with
      | none => rw [hj] at hres; cases hres
      | some a =>
        rw [hj, Option.some_bind] at hres
        obtain rfl : a = t := by simpa [getNodeAtPath?] using hres
        rfl
    have hpv : jsGet? G.children (i - 1) = some prev := by
      rw [getNodeAtPath?_cons] at hprev
      cases hj : jsGet? G.children (i - 1) with
      | none => rw [hj] at hprev; cases hprev
      | some a =>
        rw [hj, Option.some_bind] at hprev
        obtain rfl : a = prev := by simpa [getNodeAtPath?] using hprev
        rfl
    obtain ⟨r, hr1, hr2⟩ := updateNodeAtPath_roundtrip (indentUpdater i)
      (outdentUpdater (i - 1) (prev.children.length : Int)) pp root G hG
      (G.withChildren ((G.children.eraseIdx i.toNat).set (i.toNat - 1)
        (prev.withChildren (prev.children ++ [t]))))
      (indentUpdater_leaf G t prev i ht hpv)
      (outdentUpdater_undoes_indentUpdater G t prev i ht hpv hi)
    have hind : handleIndent root (pp ++ [i]) = .ok r := by
      simp only [handleIndent, List.getLast?_concat, List.dropLast_concat]
      rw [if_neg (by omega)]
      rw [hr1]
      rfl
    rw [hind]
    simp only [Except.bind]
    have hsplit : pp ++ [i - 1, (prev.children.length : Int)] =
        (pp ++ [i - 1]) ++ [(prev.children.length : Int)] := by simp
    rw [hsplit]
    simp only [handleOutdent]
    rw [if_neg (by simp)]
    simp only [List.getLast?_concat, List.dropLast_concat]
    rw [hr2]
    rfl

/-- Witness for C3: on a root with children `[A, B]`, indenting `B`
(path `[1]`) and then outdenting it at its new position `[0, 0]` (last child
of `A`, which had no children) restores the original tree. -/
theorem C3_witness :
    (handleIndent
        (.mk "0" "R" [.mk "a" "A" [] false, .mk "b" "B" [] false] false)
        ([] ++ [1])).bind
      (fun r => handleOutdent r ([] ++ [1 - 1,
        ((Node.mk "a" "A" [] false).children.length : Int)])) =
      .ok (.mk "0" "R" [.mk "a" "A" [] false, .mk "b" "B" [] false] false) :=
  C3_indent_then_outdent_roundtrip
    (.mk "0" "R" [.mk "a" "A" [] false, .mk "b" "B" [] false] false)
    (.mk "b" "B" [] false) (.mk "a" "A" [] false) [] 1 (by decide) rfl rfl
